import Mathlib

/-!
Verification development for the toxicity-analysis application.

The Python sources embedded here are `src/models/toxic_classifier.py`
(class `ToxicClassifier`) and `src/utils/text_preprocessing.py`
(class `TextPreprocessor`, functions `basic_clean`, module-level config).

Text is modelled as `List Char` (ASCII-level model of Python `str`).
Probability scores are modelled as `ℚ` (exact stand-in for Python floats;
the claims under study concern only ordering bounds and structural facts,
never float rounding).  External collaborators that the repository calls
but does not contain (the Keras `Tokenizer` word index, the network
forward pass, the NLTK tokenizer) are modelled as explicit parameters or,
for `word_tokenize`, by the repository's own documented fallback
(`text.split()`), as noted at each definition.
-/

/-- Python whitespace characters recognised by `str.split` / `str.strip` /
regex `\s` (ASCII model): space, tab, newline, carriage return, vertical
tab, form feed. -/
def isPySpace (c : Char) : Bool :=
  c = ' ' || c = '\t' || c = '\n' || c = '\r' || c = Char.ofNat 11 || c = Char.ofNat 12

/-- ASCII model of Python `str.lower` applied to a single character. -/
def toLowerChar (c : Char) : Char :=
  if 65 ≤ c.toNat ∧ c.toNat ≤ 90 then Char.ofNat (c.toNat + 32) else c

/-- Python `str.lower`. -/
def pyLower (l : List Char) : List Char := l.map toLowerChar

/-- Python `str.strip()`: remove leading and trailing whitespace. -/
def pyStrip (l : List Char) : List Char :=
  ((l.dropWhile isPySpace).reverse.dropWhile isPySpace).reverse

/-- Split a character list into its maximal runs of characters *not*
satisfying `p`, discarding separators and empty runs.  With
`p = isPySpace` this is Python `str.split()` (no argument); with
`p = (· == ' ')` it is Keras' `text.split(' ')` followed by dropping
empty strings. -/
def pyTokens (p : Char → Bool) : List Char → List (List Char)
  | [] => []
  | [c] => if p c then [] else [[c]]
  | c :: d :: rest =>
    if p c then pyTokens p (d :: rest)
    else
      if p d then [c] :: pyTokens p (d :: rest)
      else
        match pyTokens p (d :: rest) with
        | [] => [[c]]
        | t :: ts => (c :: t) :: ts

/-- Python `' '.join(tokens)`. -/
def joinSp : List (List Char) → List Char
  | [] => []
  | [t] => t
  | t :: ts => t ++ ' ' :: joinSp ts

/-- Python `' '.join(text.split())`: collapse internal whitespace runs to
single spaces and trim the ends (`text_preprocessing.py`, both inside
`clean_text` and inside `basic_clean`). -/
def collapseWs (l : List Char) : List Char := joinSp (pyTokens isPySpace l)

/-- Length of the leftmost-at-this-position match of the regex
`http\S+|www\S+|https\S+` used by `re.sub` in `clean_text` and
`basic_clean`, or `none` when no match starts at the head of `l`.
The alternative `https\S+` is subsumed by `http\S+` and contributes no
extra case.  `\S+` is greedy, so a match extends over the maximal
following run of non-whitespace characters. -/
def urlMatchLen (l : List Char) : Option Nat :=
  if l.take 4 = ['h', 't', 't', 'p'] ∧ (l.drop 4).takeWhile (fun c => !isPySpace c) ≠ [] then
    some (4 + ((l.drop 4).takeWhile (fun c => !isPySpace c)).length)
  else if l.take 3 = ['w', 'w', 'w'] ∧ (l.drop 3).takeWhile (fun c => !isPySpace c) ≠ [] then
    some (3 + ((l.drop 3).takeWhile (fun c => !isPySpace c)).length)
  else
    none

/-- Does any position of `l` start a match of the URL regex? -/
def hasUrl : List Char → Bool
  | [] => false
  | c :: rest => (urlMatchLen (c :: rest)).isSome || hasUrl rest

/-- Fuel-driven worker for `stripUrls`; the fuel is an upper bound on the
list length, consumed so that the definition is structurally recursive
and evaluates inside the kernel. -/
def stripUrlsGo : Nat → List Char → List Char
  | 0, _ => []
  | _ + 1, [] => []
  | n + 1, c :: rest =>
    match urlMatchLen (c :: rest) with
    | some k => stripUrlsGo n ((c :: rest).drop k)
    | none => c :: stripUrlsGo n rest

/-- Python `re.sub(r'http\S+|www\S+|https\S+', '', text)`: scan left to
right, deleting each leftmost match and resuming after it. -/
def stripUrls (l : List Char) : List Char := stripUrlsGo l.length l

/-- The Python values relevant to the classifier's and preprocessor's
input contracts: strings, `None`, and a representative non-string
truthy/falsy value (`int`). -/
inductive PyVal where
  | str (s : List Char)
  | none
  | int (n : Int)
deriving DecidableEq

/-- Python truthiness of a `PyVal`. -/
def pyTruthy : PyVal → Bool
  | .str s => !s.isEmpty
  | .none => false
  | .int n => n ≠ 0

/-- Python `str(v)` for the modelled values: identity on strings, the
literal `"None"` for `None`, decimal notation for integers. -/
def pyStr : PyVal → List Char
  | .str s => s
  | .none => "None".toList
  | .int n => (toString n).toList

/-- Configuration and helper state of `TextPreprocessor.__init__`
(`text_preprocessing.py`).  `stop_words` models the NLTK English stopword
set loaded when `remove_stopwords` is set (empty set otherwise, exactly
as in the source); `stemFn` models the external Porter stemmer, installed
when `stemming` is set. -/
structure TextPreprocessor where
  remove_punctuation : Bool
  remove_stopwords : Bool
  lowercase : Bool
  remove_urls : Bool
  remove_special_chars : Bool
  stemming : Bool
  stop_words : List (List Char)
  stemFn : List Char → List Char

/-- Characters kept by `re.sub(r'[^a-zA-Z\s]', '', text)`. -/
def keepAlphaSpace (c : Char) : Bool :=
  (65 ≤ c.toNat && c.toNat ≤ 90) || (97 ≤ c.toNat && c.toNat ≤ 122) || isPySpace c

/-- Does `t` start with `pre`? (helper for the substring test below). -/
def startsWithSeg : List Char → List Char → Bool
  | [], _ => true
  | _ :: _, [] => false
  | a :: t, b :: l => a = b && startsWithSeg t l

/-- Python `t in s` for strings: `t` occurs as a contiguous segment of
`s`.  Used by `clean_text`'s `token not in string.punctuation`. -/
def containsSeg : List Char → List Char → Bool
  | [], t => t.isEmpty
  | c :: r, t => startsWithSeg t (c :: r) || containsSeg r t

/-- Python's `string.punctuation`. -/
def punctuationChars : List Char :=
  ['!', '"', '#', '$', '%', '&', Char.ofNat 39, '(', ')', '*', '+', ',', '-', '.', '/',
   ':', ';', '<', '=', '>', '?', '@', '[', '\\', ']', '^', '_', Char.ofNat 96,
   Char.ofNat 123, '|', Char.ofNat 125, '~']

/-- `TextPreprocessor.clean_text` (`text_preprocessing.py` lines 68-121),
for string input (`clean_text_py` below adds the non-string `str()`
conversion).  The NLTK `word_tokenize` call is external to the
repository; it is modelled by the repository's own exception fallback
`text.split()` (same file, the `except` branch of the tokenize step).
The stemming `try`/`except` swallows failures, so the stemmer is modelled
as the total function `P.stemFn`. -/
def clean_text (P : TextPreprocessor) (text : List Char) : List Char :=
  let t1 := if P.lowercase then pyLower text else text
  let t2 := if P.remove_urls then stripUrls t1 else t1
  let t3 := if P.remove_special_chars then t2.filter keepAlphaSpace else t2
  let t4 := collapseWs t3
  let tokens0 := pyTokens isPySpace t4
  let tokens1 :=
    if P.remove_stopwords && !P.stop_words.isEmpty then
      tokens0.filter (fun tok => !(P.stop_words.contains (pyLower tok)))
    else tokens0
  let tokens2 :=
    if P.remove_punctuation then
      tokens1.filter (fun tok => !(containsSeg punctuationChars tok))
    else tokens1
  let tokens3 := if P.stemming then tokens2.map P.stemFn else tokens2
  pyStrip (joinSp tokens3)

/-- The module-level `_default_preprocessor` of `text_preprocessing.py`:
keep punctuation and stopwords, lowercase, strip URLs, keep special
characters, no stemming.  With `remove_stopwords=False` the source sets
`stop_words = set()` and never builds a stemmer. -/
def defaultPreprocessor : TextPreprocessor :=
  { remove_punctuation := false
    remove_stopwords := false
    lowercase := true
    remove_urls := true
    remove_special_chars := false
    stemming := false
    stop_words := []
    stemFn := id }

/-- `clean_text` including the `if not isinstance(text, str): text = str(text)`
conversion at its head. -/
def clean_text_py (P : TextPreprocessor) (v : PyVal) : List Char :=
  clean_text P (pyStr v)

/-- `basic_clean` (`text_preprocessing.py` lines 146-172): `str()`
conversion, lowercase + strip, URL removal, whitespace collapse. -/
def basic_clean (v : PyVal) : List Char :=
  collapseWs (stripUrls (pyStrip (pyLower (pyStr v))))

/-- The Keras `Tokenizer` state used by `ToxicClassifier`: the fitted
word index (external artifact, modelled as a lookup function), the
configured maximum vocabulary size `num_words`, and the index assigned to
the out-of-vocabulary token when one was configured. -/
structure Tokenizer where
  word_index : List Char → Option Nat
  num_words : Option Nat
  oov_index : Option Nat

/-- Default filter characters of Keras `text_to_word_sequence`:
``!"#$%&()*+,-./:;<=>?@[\]^_`{|}~`` plus tab and newline. -/
def kerasFilters : List Char :=
  ['!', '"', '#', '$', '%', '&', '(', ')', '*', '+', ',', '-', '.', '/',
   ':', ';', '<', '=', '>', '?', '@', '[', '\\', ']', '^', '_', Char.ofNat 96,
   Char.ofNat 123, '|', Char.ofNat 125, '~', '\t', '\n']

/-- Keras `text_to_word_sequence` character translation: each filter
character becomes the split character `' '`. -/
def kerasTranslate (c : Char) : Char := if kerasFilters.contains c then ' ' else c

/-- Keras `text_to_word_sequence(text)` with default arguments:
lowercase, translate filter characters to spaces, split on `' '`, drop
empty tokens. -/
def text_to_word_sequence (l : List Char) : List (List Char) :=
  pyTokens (fun c => c == ' ') ((pyLower l).map kerasTranslate)

/-- Keras `texts_to_sequences` treatment of a single word: a known index
below `num_words` is kept; a known index at or above `num_words` and an
unknown word both map to the out-of-vocabulary index when one exists and
are dropped otherwise. -/
def tokenToId (tk : Tokenizer) (w : List Char) : Option Nat :=
  match tk.word_index w with
  | some i =>
    match tk.num_words with
    | some nw => if nw ≤ i then tk.oov_index else some i
    | none => some i
  | none => tk.oov_index

/-- Keras `tokenizer.texts_to_sequences([text])[0]`. -/
def texts_to_sequences_one (tk : Tokenizer) (l : List Char) : List Nat :=
  (text_to_word_sequence l).filterMap (tokenToId tk)

/-- Keras `pad_sequences([seq], maxlen)[0]` with default arguments
(`padding='pre'`, `truncating='pre'`, `value=0`): keep the last `maxlen`
ids, then left-pad with zeros to exactly `maxlen`. -/
def pad_sequences (maxlen : Nat) (s : List Nat) : List Nat :=
  let t := s.drop (s.length - maxlen)
  List.replicate (maxlen - t.length) 0 ++ t

/-- `ToxicClassifier.max_len`. -/
def max_len : Nat := 100

/-- `ToxicClassifier.max_features`. -/
def max_features : Nat := 20000

/-- `ToxicClassifier.preprocess_text` (`toxic_classifier.py` lines
131-154): `str` coercion (callers pass strings), `text.lower().strip()`,
`texts_to_sequences`, `pad_sequences(maxlen=100)`. -/
def preprocess_text (tk : Tokenizer) (text : List Char) : List Nat :=
  pad_sequences max_len (texts_to_sequences_one tk (pyStrip (pyLower text)))

/-- Exceptions observable in the embedded fragment. -/
inductive PyErr where
  | attributeError
  | loadError
  | inferenceError
deriving DecidableEq

/-- The loaded network: `model.predict` on a batch of one padded
sequence, returning the single output row.  The forward pass is external
numeric code; it is modelled as an arbitrary function that may also raise
(the `Except.error` case), which `predict`'s `try`/`except` must absorb. -/
structure KerasModel where
  forward : List Nat → Except PyErr (List ℚ)

/-- The state of a constructed `ToxicClassifier`: `self.model` and
`self.tokenizer`, each `None` until `_load_model` / `_load_tokenizer`
install a value. -/
structure ToxicClassifier where
  model : Option KerasModel
  tokenizer : Option Tokenizer

/-- `ToxicClassifier.categories`: the fixed ordered six-label list. -/
def categories : List String :=
  ["toxic", "severe_toxic", "obscene", "threat", "insult", "identity_hate"]

/-- A prediction result: the insertion-ordered dict from category name to
score. -/
abbrev ScoreMap := List (String × ℚ)

/-- `{category: q for category in self.categories}`. -/
def constMap (q : ℚ) : ScoreMap := categories.map (fun c => (c, q))

/-- `ToxicClassifier.predict` (`toxic_classifier.py` lines 156-192) on a
string argument.  The guard `if not text or not text.strip()` short-
circuits to the all-zero mapping; inside the `try` block the text is
preprocessed, a missing model yields the `random.uniform(0.1, 0.9)`
mapping (the sampler is the explicit parameter `rng`), and the forward
row is zipped with the category list; any exception inside the `try`
(a raising forward pass, or fewer than six output columns making
`predictions[0][i]` raise) is caught and yields the uniform `0.1`
mapping, as does a `None` tokenizer (whose attribute access would raise
inside the `try`).  For string input every path returns a mapping, so
the function is total. -/
def predict (C : ToxicClassifier) (rng : Fin 6 → ℚ) (text : List Char) : ScoreMap :=
  if text.isEmpty || (pyStrip text).isEmpty then constMap 0
  else
    match C.tokenizer with
    | Option.none => constMap (1 / 10)
    | some tk =>
      match C.model with
      | Option.none => categories.zip (List.ofFn rng)
      | some mdl =>
        match mdl.forward (preprocess_text tk text) with
        | .error _ => constMap (1 / 10)
        | .ok preds =>
          if 6 ≤ preds.length then categories.zip (preds.take 6) else constMap (1 / 10)

/-- `ToxicClassifier.predict` on an arbitrary value: `if not text` first
tests truthiness, and for a truthy non-string the attribute access
`text.strip()` raises `AttributeError` *outside* the `try` block, so that
exception propagates to the caller. -/
def predict_py (C : ToxicClassifier) (rng : Fin 6 → ℚ) (v : PyVal) : Except PyErr ScoreMap :=
  match v with
  | .str s => .ok (predict C rng s)
  | v => if pyTruthy v then .error .attributeError else .ok (constMap 0)

/-- `ToxicClassifier.batch_predict` (`toxic_classifier.py` lines
194-208): a `for` loop appending `self.predict(text)` for each element;
an exception raised by any element's `predict` propagates. -/
def batch_predict (C : ToxicClassifier) (rng : Fin 6 → ℚ) : List PyVal → Except PyErr (List ScoreMap)
  | [] => .ok []
  | t :: ts =>
    match predict_py C rng t with
    | .error e => .error e
    | .ok m =>
      match batch_predict C rng ts with
      | .error e => .error e
      | .ok ms => .ok (m :: ms)

/-- The fields of the dict returned by `ToxicClassifier.get_model_info`
(the optional `model_params`/`model_layers` introspection entries carry
no logic and are omitted). -/
structure ModelInfo where
  info_categories : List String
  info_max_features : Nat
  info_max_length : Nat
  model_loaded : Bool
  tokenizer_loaded : Bool

/-- `ToxicClassifier.get_model_info` (`toxic_classifier.py` lines 210-232). -/
def get_model_info (C : ToxicClassifier) : ModelInfo :=
  { info_categories := categories
    info_max_features := max_features
    info_max_length := max_len
    model_loaded := C.model.isSome
    tokenizer_loaded := C.tokenizer.isSome }

/-- Word index produced by `_create_dummy_tokenizer`: a Keras tokenizer
with `oov_token="<OOV>"` fitted on the four hard-coded sample texts
assigns index 1 to the OOV token and then indexes words by descending
frequency, ties broken by first occurrence. -/
def dummy_word_index : List (List Char × Nat) :=
  [("<OOV>".toList, 1), ("sample".toList, 2), ("this".toList, 3),
   ("is".toList, 4), ("a".toList, 5), ("text".toList, 6),
   ("another".toList, 7), ("for".toList, 8), ("tokenizer".toList, 9),
   ("toxic".toList, 10), ("bad".toList, 11), ("words".toList, 12),
   ("here".toList, 13), ("clean".toList, 14), ("good".toList, 15),
   ("content".toList, 16)]

/-- `ToxicClassifier._create_dummy_tokenizer`. -/
def create_dummy_tokenizer : Tokenizer :=
  { word_index := fun w => (dummy_word_index.find? (fun p => p.1 = w)).map (fun p => p.2)
    num_words := some max_features
    oov_index := some 1 }

/-- `ToxicClassifier._create_dummy_model`: an untrained
`Dense(64)/Dropout/Dense(32)/Dense(6, sigmoid)` network.  Its randomly
initialised weights are external state, modelled by the parameter
`init`; the architecture fixes the output width at six, which the
`List.ofFn` packaging records. -/
def create_dummy_model (init : List Nat → Fin 6 → ℚ) : KerasModel :=
  { forward := fun x => .ok (List.ofFn (init x)) }

/-- `ToxicClassifier._load_model`: any failure while locating, parsing,
loading or compiling the artifacts (the `res = .error` case) is caught
and replaced by the dummy model. -/
def load_model (init : List Nat → Fin 6 → ℚ) (res : Except PyErr KerasModel) : KerasModel :=
  match res with
  | .ok m => m
  | .error _ => create_dummy_model init

/-- `ToxicClassifier._load_tokenizer`: a missing pickle file and a
failing unpickle both fall back to the dummy tokenizer. -/
def load_tokenizer (res : Except PyErr Tokenizer) : Tokenizer :=
  match res with
  | .ok t => t
  | .error _ => create_dummy_tokenizer

/-- `ToxicClassifier.__init__`: set the fixed configuration, then run
`_load_model` and `_load_tokenizer`, both of which always install a
value. -/
def mkToxicClassifier (init : List Nat → Fin 6 → ℚ) (resM : Except PyErr KerasModel)
    (resT : Except PyErr Tokenizer) : ToxicClassifier :=
  { model := some (load_model init resM)
    tokenizer := some (load_tokenizer resT) }

/-- A tokenizer with an empty word index and an OOV index, used to
instantiate witnesses on concrete inputs. -/
def tkZero : Tokenizer :=
  { word_index := fun _ => Option.none, num_words := some max_features, oov_index := some 1 }

/-- A loaded model whose forward pass returns six one-half scores. -/
def halfModel : KerasModel :=
  { forward := fun _ => .ok (List.replicate 6 (1 / 2)) }

/-- A loaded model whose forward pass always raises. -/
def errModel : KerasModel :=
  { forward := fun _ => .error .inferenceError }

/-- A classifier holding `halfModel` and `tkZero`. -/
def exampleC : ToxicClassifier := { model := some halfModel, tokenizer := some tkZero }

/-- A classifier holding `errModel` and `tkZero`. -/
def errC : ToxicClassifier := { model := some errModel, tokenizer := some tkZero }

/-- A constant sampler standing in for `random.uniform(0.1, 0.9)`. -/
def rngHalf : Fin 6 → ℚ := fun _ => 1 / 2

/-- `t` occurs as a contiguous segment of `l`. -/
def subseg (t l : List Char) : Prop := ∃ u v, l = u ++ t ++ v

/-- Valid small code points round-trip through `Char.ofNat`. -/
theorem toNat_ofNat_small {n : Nat} (h : n < 55296) : (Char.ofNat n).toNat = n := by
  rw [Char.ofNat, dif_pos (Or.inl h)]
  rfl

/-- Lowercasing a character twice is the same as lowercasing it once. -/
theorem toLowerChar_idem (c : Char) : toLowerChar (toLowerChar c) = toLowerChar c := by
  unfold toLowerChar
  split_ifs with h1 h2
  · exfalso
    rw [toNat_ofNat_small (by omega)] at h2
    omega
  · rfl
  · rfl

/-- Dropping the length of the `takeWhile` prefix is `dropWhile`. -/
theorem drop_len_takeWhile (p : Char → Bool) (l : List Char) :
    l.drop (l.takeWhile p).length = l.dropWhile p := by
  induction l with
  | nil => rfl
  | cons a l ih =>
    by_cases h : p a
    · simp only [List.takeWhile_cons, h, if_true, List.length_cons, List.drop_succ_cons,
        List.dropWhile_cons, ih]
    · simp only [List.takeWhile_cons, h, if_false, List.length_nil, List.drop_zero,
        List.dropWhile_cons]
      simp [h]

/-- The head surviving `dropWhile` fails the predicate. -/
theorem dropWhile_head_false {p : Char → Bool} {l : List Char} {c : Char} {y : List Char}
    (h : l.dropWhile p = c :: y) : p c = false := by
  induction l with
  | nil => exact absurd h (by simp)
  | cons a l ih =>
    rw [List.dropWhile_cons] at h
    split at h
    · exact ih h
    · next hpa =>
      cases h
      simpa using hpa

/-- `takeWhile` keeps a list all of whose elements satisfy `p`. -/
theorem takeWhile_eq_self_of_all {p : Char → Bool} {l : List Char}
    (h : ∀ c ∈ l, p c = true) : l.takeWhile p = l := by
  induction l with
  | nil => rfl
  | cons a l ih =>
    rw [List.takeWhile_cons, if_pos (h a (by simp))]
    rw [ih (fun c hc => h c (by simp [hc]))]

/-- No URL match starts at the empty list. -/
theorem uml_nil : urlMatchLen [] = none := by decide

/-- No URL match starts at a whitespace character. -/
theorem uml_space_head {c : Char} (y : List Char) (h : isPySpace c = true) :
    urlMatchLen (c :: y) = none := by
  rw [urlMatchLen]
  rw [if_neg, if_neg]
  · rintro ⟨h3, -⟩
    have hc : c = 'w' := by
      have := congrArg (fun l => l.head?) h3
      simpa [List.take] using this
    subst hc
    simp [isPySpace] at h
  · rintro ⟨h4, -⟩
    have hc : c = 'h' := by
      have := congrArg (fun l => l.head?) h4
      simpa [List.take] using this
    subst hc
    simp [isPySpace] at h

/-- A URL match has length at least four, and forces a nonempty list. -/
theorem uml_some_ge {l : List Char} {k : Nat} (h : urlMatchLen l = some k) :
    4 ≤ k ∧ l ≠ [] := by
  rw [urlMatchLen] at h
  split_ifs at h with h1 h2
  · cases h
    refine ⟨by have := h1.2; omega, ?_⟩
    rintro rfl
    simpa using h1.1
  · cases h
    constructor
    · rcases h2 with ⟨-, hne⟩
      have : ((l.drop 3).takeWhile (fun c => !isPySpace c)).length ≠ 0 := by
        simpa using hne
      omega
    · rintro rfl
      simpa using h2.1

/-- After deleting a URL match, the remaining suffix is empty or starts
with whitespace: the greedy `\S+` consumed the whole non-space run. -/
theorem uml_drop_space {l : List Char} {k : Nat} (h : urlMatchLen l = some k) :
    l.drop k = [] ∨ ∃ c y, l.drop k = c :: y ∧ isPySpace c = true := by
  rw [urlMatchLen] at h
  split_ifs at h with h1 h2
  · cases h
    have hd : l.drop (4 + ((l.drop 4).takeWhile (fun c => !isPySpace c)).length)
        = (l.drop 4).dropWhile (fun c => !isPySpace c) := by
      rw [← List.drop_drop, drop_len_takeWhile]
    rw [hd]
    cases hdw : (l.drop 4).dropWhile (fun c => !isPySpace c) with
    | nil => exact Or.inl rfl
    | cons c y =>
      refine Or.inr ⟨c, y, rfl, ?_⟩
      have := dropWhile_head_false hdw
      simpa using this
  · cases h
    have hd : l.drop (3 + ((l.drop 3).takeWhile (fun c => !isPySpace c)).length)
        = (l.drop 3).dropWhile (fun c => !isPySpace c) := by
      rw [← List.drop_drop, drop_len_takeWhile]
    rw [hd]
    cases hdw : (l.drop 3).dropWhile (fun c => !isPySpace c) with
    | nil => exact Or.inl rfl
    | cons c y =>
      refine Or.inr ⟨c, y, rfl, ?_⟩
      have := dropWhile_head_false hdw
      simpa using this

/-- The fuel of `stripUrlsGo` is irrelevant once it covers the length. -/
theorem stripUrlsGo_fuel : ∀ (n m : Nat) (l : List Char), l.length ≤ n → l.length ≤ m →
    stripUrlsGo n l = stripUrlsGo m l := by
  intro n
  induction n with
  | zero =>
    intro m l hn _
    have : l = [] := List.length_eq_zero.mp (Nat.le_zero.mp hn)
    subst this
    cases m <;> rfl
  | succ n ih =>
    intro m l hn hm
    cases l with
    | nil => cases m <;> rfl
    | cons c rest =>
      cases m with
      | zero => simp at hm
      | succ m =>
        show stripUrlsGo (n+1) (c :: rest) = stripUrlsGo (m+1) (c :: rest)
        cases huml : urlMatchLen (c :: rest) with
        | none =>
          have hr : rest.length ≤ n := by simpa using hn
          have hr' : rest.length ≤ m := by simpa using hm
          simp only [stripUrlsGo, huml]
          rw [ih m rest hr hr']
        | some k =>
          have hk := (uml_some_ge huml).1
          have hlen : ((c :: rest).drop k).length ≤ n := by
            simp only [List.length_drop, List.length_cons]
            simp only [List.length_cons] at hn
            omega
          have hlen' : ((c :: rest).drop k).length ≤ m := by
            simp only [List.length_drop, List.length_cons]
            simp only [List.length_cons] at hm
            omega
          simp only [stripUrlsGo, huml]
          rw [ih m _ hlen hlen']

/-- `stripUrls` on the empty list. -/
theorem stripUrls_nil : stripUrls [] = [] := rfl

/-- Recursion equation of `stripUrls` at a match position. -/
theorem stripUrls_match {l : List Char} {k : Nat} (h : urlMatchLen l = some k) :
    stripUrls l = stripUrls (l.drop k) := by
  obtain ⟨hk, hne⟩ := uml_some_ge h
  cases l with
  | nil => exact absurd rfl hne
  | cons c rest =>
    show stripUrlsGo (rest.length + 1) (c :: rest) = stripUrls ((c :: rest).drop k)
    simp only [stripUrlsGo, h]
    apply stripUrlsGo_fuel
    · simp only [List.length_drop, List.length_cons]
      omega
    · exact Nat.le_refl _

/-- Recursion equation of `stripUrls` at a non-match position. -/
theorem stripUrls_cons {c : Char} {rest : List Char} (h : urlMatchLen (c :: rest) = none) :
    stripUrls (c :: rest) = c :: stripUrls rest := by
  show stripUrlsGo (rest.length + 1) (c :: rest) = c :: stripUrls rest
  simp only [stripUrlsGo, h]
  rfl

/-- Every character of `stripUrls l` comes from `l`. -/
theorem stripUrls_chars : ∀ (n : Nat) (l : List Char), l.length ≤ n →
    ∀ c ∈ stripUrls l, c ∈ l := by
  intro n
  induction n with
  | zero =>
    intro l hn
    have : l = [] := List.length_eq_zero.mp (Nat.le_zero.mp hn)
    subst this
    simp [stripUrls_nil]
  | succ n ih =>
    intro l hn c hc
    cases l with
    | nil => simp [stripUrls_nil] at hc
    | cons a rest =>
      cases huml : urlMatchLen (a :: rest) with
      | some k =>
        rw [stripUrls_match huml] at hc
        have hk := (uml_some_ge huml).1
        have hlen : ((a :: rest).drop k).length ≤ n := by
          simp only [List.length_drop, List.length_cons]
          simp only [List.length_cons] at hn
          omega
        exact List.mem_of_mem_drop (ih _ hlen c hc)
      | none =>
        rw [stripUrls_cons huml] at hc
        rcases List.mem_cons.mp hc with h | h
        · simp [h]
        · have hr : rest.length ≤ n := by simpa using hn
          exact List.mem_cons_of_mem a (ih rest hr c h)

/-- Inversion for `stripUrls`: a non-whitespace head of the output is the
head of the input, the input has no match at its head, and the tail of
the output is `stripUrls` of the input's tail. -/
theorem stripUrls_head_inv {r : List Char} {a : Char} {sr : List Char}
    (h : stripUrls r = a :: sr) (ha : isPySpace a = false) :
    ∃ r', r = a :: r' ∧ urlMatchLen r = none ∧ stripUrls r' = sr := by
  cases r with
  | nil => exact absurd h (by simp [stripUrls_nil])
  | cons c rest =>
    cases huml : urlMatchLen (c :: rest) with
    | some k =>
      exfalso
      rw [stripUrls_match huml] at h
      rcases uml_drop_space huml with hnil | ⟨d, y, hdy, hd⟩
      · rw [hnil, stripUrls_nil] at h
        exact absurd h (by simp)
      · rw [hdy, stripUrls_cons (uml_space_head y hd)] at h
        injection h with h1 h2
        rw [h1, ha] at hd
        simp at hd
    | none =>
      rw [stripUrls_cons huml] at h
      injection h with h1 h2
      subst h1
      exact ⟨rest, rfl, rfl, h2⟩

/-- Lists of length at most three have no URL match at their head. -/
theorem uml_short {l : List Char} (h : l.length ≤ 3) : urlMatchLen l = none := by
  rw [urlMatchLen]
  split_ifs with h1 h2
  · exfalso
    have := congrArg List.length h1.1
    simp [List.length_take] at this
    omega
  · exfalso
    apply h2.2
    have : l.drop 3 = [] := by
      apply List.drop_eq_nil_of_le
      omega
    rw [this]
    rfl
  · rfl

/-- A missing match refutes the `http` condition. -/
theorem uml_none_http {l : List Char} (h : urlMatchLen l = none)
    (hcond : l.take 4 = ['h', 't', 't', 'p'] ∧
      (l.drop 4).takeWhile (fun c => !isPySpace c) ≠ []) : False := by
  rw [urlMatchLen, if_pos hcond] at h
  exact Option.noConfusion h

/-- A missing match refutes the `www` condition. -/
theorem uml_none_www {l : List Char} (h : urlMatchLen l = none)
    (hcond : l.take 3 = ['w', 'w', 'w'] ∧
      (l.drop 3).takeWhile (fun c => !isPySpace c) ≠ []) : False := by
  rw [urlMatchLen] at h
  by_cases hA : l.take 4 = ['h', 't', 't', 'p'] ∧
      (l.drop 4).takeWhile (fun c => !isPySpace c) ≠ []
  · rw [if_pos hA] at h
    exact Option.noConfusion h
  · rw [if_neg hA, if_pos hcond] at h
    exact Option.noConfusion h

/-- An element inserted before position `n` appears in the `take n`. -/
theorem mem_of_take_append {t y : List Char} {c : Char} {n : Nat} (hlen : t.length < n) :
    c ∈ (t ++ c :: y).take n := by
  rw [List.take_append_eq_append_take]
  refine List.mem_append_right _ ?_
  cases hn : n - t.length with
  | zero => omega
  | succ m =>
    rw [List.take_succ_cons]
    exact List.mem_cons_self _ _

/-- Appending a whitespace character (and anything after it) to a list
with no head match cannot create a head match. -/
theorem uml_ext {t : List Char} {c : Char} (y : List Char) (ht : urlMatchLen t = none)
    (hc : isPySpace c = true) : urlMatchLen (t ++ c :: y) = none := by
  have hns : (!isPySpace c) = false := by simp [hc]
  rw [urlMatchLen]
  split_ifs with h1 h2
  · exfalso
    obtain ⟨h4, hne⟩ := h1
    by_cases hlen : 4 ≤ t.length
    · rw [List.take_append_of_le_length hlen] at h4
      rw [List.drop_append_of_le_length hlen] at hne
      apply uml_none_http ht
      refine ⟨h4, ?_⟩
      cases hd : t.drop 4 with
      | nil =>
        rw [hd, List.nil_append, List.takeWhile_cons, if_neg (by simp [hns])] at hne
        exact absurd rfl hne
      | cons d w =>
        rw [hd, List.cons_append, List.takeWhile_cons] at hne
        rw [List.takeWhile_cons]
        by_cases hnd : (!isPySpace d) = true
        · rw [if_pos hnd]
          simp
        · rw [if_neg hnd] at hne
          exact absurd rfl hne
    · have hmem : c ∈ (t ++ c :: y).take 4 := mem_of_take_append (by omega)
      rw [h4] at hmem
      simp at hmem
      rcases hmem with rfl | rfl | rfl
      · exact absurd hc (by decide)
      · exact absurd hc (by decide)
      · exact absurd hc (by decide)
  · exfalso
    obtain ⟨h3, hne⟩ := h2
    by_cases hlen : 3 ≤ t.length
    · rw [List.take_append_of_le_length hlen] at h3
      rw [List.drop_append_of_le_length hlen] at hne
      apply uml_none_www ht
      refine ⟨h3, ?_⟩
      cases hd : t.drop 3 with
      | nil =>
        rw [hd, List.nil_append, List.takeWhile_cons, if_neg (by simp [hns])] at hne
        exact absurd rfl hne
      | cons d w =>
        rw [hd, List.cons_append, List.takeWhile_cons] at hne
        rw [List.takeWhile_cons]
        by_cases hnd : (!isPySpace d) = true
        · rw [if_pos hnd]
          simp
        · rw [if_neg hnd] at hne
          exact absurd rfl hne
    · have hmem : c ∈ (t ++ c :: y).take 3 := mem_of_take_append (by omega)
      rw [h3] at hmem
      simp at hmem
      rw [hmem] at hc
      exact absurd hc (by decide)
  · rfl

/-- A head match survives appending on the right. -/
theorem uml_lift {z : List Char} {k : Nat} (s : List Char) (h : urlMatchLen z = some k) :
    ∃ k', urlMatchLen (z ++ s) = some k' := by
  rw [urlMatchLen] at h
  split_ifs at h with h1 h2
  · obtain ⟨h4, hne⟩ := h1
    have hlen : 4 ≤ z.length := by
      have := congrArg List.length h4
      simp [List.length_take] at this
      omega
    rw [urlMatchLen]
    rw [if_pos]
    · exact ⟨_, rfl⟩
    constructor
    · rw [List.take_append_of_le_length hlen, h4]
    · rw [List.drop_append_of_le_length hlen]
      cases hd : z.drop 4 with
      | nil =>
        rw [hd] at hne
        exact absurd rfl hne
      | cons d w =>
        rw [hd, List.takeWhile_cons] at hne
        by_cases hnd : (!isPySpace d) = true
        · rw [List.cons_append, List.takeWhile_cons, if_pos hnd]
          simp
        · rw [if_neg hnd] at hne
          exact absurd rfl hne
  · obtain ⟨h3, hne⟩ := h2
    have hlen : 3 ≤ z.length := by
      have := congrArg List.length h3
      simp [List.length_take] at this
      omega
    have hwhead : ∃ z2, z = 'w' :: z2 := by
      cases z with
      | nil => simp at hlen
      | cons a z2 =>
        rw [List.take_succ_cons] at h3
        injection h3 with ha _
        exact ⟨z2, by rw [ha]⟩
    obtain ⟨z2, rfl⟩ := hwhead
    rw [urlMatchLen]
    rw [if_neg, if_pos]
    · exact ⟨_, rfl⟩
    · constructor
      · rw [List.take_append_of_le_length hlen, h3]
      · rw [List.drop_append_of_le_length hlen]
        cases hd : ('w' :: z2).drop 3 with
        | nil =>
          rw [hd] at hne
          exact absurd rfl hne
        | cons d w =>
          rw [hd, List.takeWhile_cons] at hne
          by_cases hnd : (!isPySpace d) = true
          · rw [List.cons_append, List.takeWhile_cons, if_pos hnd]
            simp
          · rw [if_neg hnd] at hne
            exact absurd rfl hne
    · rintro ⟨h4, -⟩
      rw [List.cons_append, List.take_succ_cons] at h4
      injection h4 with hw _
      exact absurd hw (by decide)

/-- An `http`-shaped head followed by a non-space character is a match. -/
theorem uml_http_cons {d : Char} (r : List Char) (hd : isPySpace d = false) :
    ∃ k, urlMatchLen ('h' :: 't' :: 't' :: 'p' :: d :: r) = some k := by
  rw [urlMatchLen]
  rw [if_pos]
  · exact ⟨_, rfl⟩
  constructor
  · rfl
  · show (d :: r).takeWhile (fun c => !isPySpace c) ≠ []
    rw [List.takeWhile_cons, if_pos (by simp [hd])]
    simp

/-- A `www`-shaped head followed by a non-space character is a match. -/
theorem uml_www_cons {d : Char} (r : List Char) (hd : isPySpace d = false) :
    ∃ k, urlMatchLen ('w' :: 'w' :: 'w' :: d :: r) = some k := by
  rw [urlMatchLen]
  by_cases hA : ('w' :: 'w' :: 'w' :: d :: r).take 4 = ['h', 't', 't', 'p'] ∧
      (('w' :: 'w' :: 'w' :: d :: r).drop 4).takeWhile (fun c => !isPySpace c) ≠ []
  · rw [if_pos hA]
    exact ⟨_, rfl⟩
  · rw [if_neg hA, if_pos]
    · exact ⟨_, rfl⟩
    constructor
    · rfl
    · show (d :: r).takeWhile (fun c => !isPySpace c) ≠ []
      rw [List.takeWhile_cons, if_pos (by simp [hd])]
      simp

/-- `hasUrl` is monotone under appending on the right. -/
theorem hasUrl_append_right {x : List Char} (s : List Char) (h : hasUrl x = true) :
    hasUrl (x ++ s) = true := by
  induction x with
  | nil => simp [hasUrl] at h
  | cons c x' ih =>
    rw [hasUrl] at h
    rw [List.cons_append, hasUrl]
    rcases (by simpa using h : (urlMatchLen (c :: x')).isSome = true ∨ hasUrl x' = true)
      with hh | ht
    · obtain ⟨k, hk⟩ := Option.isSome_iff_exists.mp hh
      obtain ⟨k', hk'⟩ := uml_lift s hk
      rw [List.cons_append] at hk'
      rw [hk']
      simp
    · rw [ih ht]
      simp

/-- `hasUrl` is monotone under prepending on the left. -/
theorem hasUrl_append_left (u : List Char) {t : List Char} (h : hasUrl t = true) :
    hasUrl (u ++ t) = true := by
  induction u with
  | nil => simpa using h
  | cons a u' ih =>
    rw [List.cons_append, hasUrl, ih]
    simp

/-- A URL match inside a contiguous segment is a URL match of the whole. -/
theorem hasUrl_of_subseg {t l : List Char} (hs : subseg t l) (h : hasUrl t = true) :
    hasUrl l = true := by
  obtain ⟨u, v, rfl⟩ := hs
  rw [List.append_assoc]
  exact hasUrl_append_left u (hasUrl_append_right v h)

/-- Core property of `re.sub`: the output of `stripUrls` contains no URL
match anywhere. -/
theorem stripUrls_no_url_aux : ∀ (n : Nat) (l : List Char), l.length ≤ n →
    hasUrl (stripUrls l) = false := by
  intro n
  induction n with
  | zero =>
    intro l hn
    have : l = [] := List.length_eq_zero.mp (Nat.le_zero.mp hn)
    subst this
    simp [stripUrls_nil, hasUrl]
  | succ n ih =>
    intro l hn
    cases l with
    | nil => simp [stripUrls_nil, hasUrl]
    | cons c rest =>
      cases huml : urlMatchLen (c :: rest) with
      | some k =>
        rw [stripUrls_match huml]
        apply ih
        have hk := (uml_some_ge huml).1
        simp only [List.length_drop, List.length_cons]
        simp only [List.length_cons] at hn
        omega
      | none =>
        rw [stripUrls_cons huml]
        have htail := ih rest (by simpa using hn)
        rw [hasUrl, htail, Bool.or_false]
        cases hx : urlMatchLen (c :: stripUrls rest) with
        | none => simp
        | some k =>
          exfalso
          rw [urlMatchLen] at hx
          split_ifs at hx with hA hB
          · obtain ⟨h4, hne⟩ := hA
            rw [List.take_succ_cons] at h4
            injection h4 with hc h3
            rw [List.drop_succ_cons] at hne
            cases hdrop : (stripUrls rest).drop 3 with
            | nil =>
              rw [hdrop] at hne
              exact absurd rfl hne
            | cons d w =>
              rw [hdrop, List.takeWhile_cons] at hne
              by_cases hnd : (!isPySpace d) = true
              · have hdns : isPySpace d = false := by simpa using hnd
                have hsr : stripUrls rest = 't' :: 't' :: 'p' :: d :: w := by
                  conv_lhs => rw [← List.take_append_drop 3 (stripUrls rest)]
                  rw [h3, hdrop]
                  rfl
                obtain ⟨r1, hr1, -, hs1⟩ := stripUrls_head_inv hsr (by decide)
                obtain ⟨r2, hr2, -, hs2⟩ := stripUrls_head_inv hs1 (by decide)
                obtain ⟨r3, hr3, -, hs3⟩ := stripUrls_head_inv hs2 (by decide)
                obtain ⟨r4, hr4, -, -⟩ := stripUrls_head_inv hs3 hdns
                rw [hc, hr1, hr2, hr3, hr4] at huml
                obtain ⟨k', hk'⟩ := uml_http_cons r4 hdns
                rw [hk'] at huml
                exact Option.noConfusion huml
              · rw [if_neg hnd] at hne
                exact absurd rfl hne
          · obtain ⟨h3, hne⟩ := hB
            rw [List.take_succ_cons] at h3
            injection h3 with hc h2
            rw [List.drop_succ_cons] at hne
            cases hdrop : (stripUrls rest).drop 2 with
            | nil =>
              rw [hdrop] at hne
              exact absurd rfl hne
            | cons d w =>
              rw [hdrop, List.takeWhile_cons] at hne
              by_cases hnd : (!isPySpace d) = true
              · have hdns : isPySpace d = false := by simpa using hnd
                have hsr : stripUrls rest = 'w' :: 'w' :: d :: w := by
                  conv_lhs => rw [← List.take_append_drop 2 (stripUrls rest)]
                  rw [h2, hdrop]
                  rfl
                obtain ⟨r1, hr1, -, hs1⟩ := stripUrls_head_inv hsr (by decide)
                obtain ⟨r2, hr2, -, hs2⟩ := stripUrls_head_inv hs1 (by decide)
                obtain ⟨r3, hr3, -, -⟩ := stripUrls_head_inv hs2 hdns
                rw [hc, hr1, hr2, hr3] at huml
                obtain ⟨k', hk'⟩ := uml_www_cons r3 hdns
                rw [hk'] at huml
                exact Option.noConfusion huml
              · rw [if_neg hnd] at hne
                exact absurd rfl hne

/-- The output of `stripUrls` contains no URL match anywhere. -/
theorem stripUrls_no_url (l : List Char) : hasUrl (stripUrls l) = false :=
  stripUrls_no_url_aux l.length l (Nat.le_refl _)

/-- `stripUrls` is the identity on match-free lists. -/
theorem stripUrls_id_of_no_url : ∀ {l : List Char}, hasUrl l = false → stripUrls l = l := by
  intro l
  induction l with
  | nil => intro _; rfl
  | cons c rest ih =>
    intro h
    rw [hasUrl, Bool.or_eq_false_iff] at h
    obtain ⟨h1, h2⟩ := h
    have h1' : urlMatchLen (c :: rest) = none :=
      Option.not_isSome_iff_eq_none.mp (fun hs => absurd hs (by simp [h1]))
    rw [stripUrls_cons h1', ih h2]

/-- `pyTokens` skips a separator at the head. -/
theorem PT_skip {p : Char → Bool} {c : Char} (z : List Char) (hc : p c = true) :
    pyTokens p (c :: z) = pyTokens p z := by
  cases z <;> simp [pyTokens, hc]

/-- `pyTokens` closes a singleton token before a separator. -/
theorem PT_sep {p : Char → Bool} {c d : Char} (rest : List Char) (hc : p c = false)
    (hd : p d = true) : pyTokens p (c :: d :: rest) = [c] :: pyTokens p (d :: rest) := by
  simp [pyTokens, hc, hd]

/-- `pyTokens` extends the first token across adjacent non-separators. -/
theorem PT_glue {p : Char → Bool} {c d : Char} {rest t0 : List Char} {ts : List (List Char)}
    (hc : p c = false) (hd : p d = false) (h1 : pyTokens p (d :: rest) = t0 :: ts) :
    pyTokens p (c :: d :: rest) = (c :: t0) :: ts := by
  simp [pyTokens, hc, hd, h1]

/-- Structure of `pyTokens` on a list with a non-separator head: the
first token is a prefix of the input starting with that head. -/
theorem pyTokens_head_struct (p : Char → Bool) :
    ∀ (rest : List Char) (d : Char), p d = false →
    ∃ t' ts' v, pyTokens p (d :: rest) = (d :: t') :: ts' ∧ d :: rest = (d :: t') ++ v := by
  intro rest
  induction rest with
  | nil =>
    intro d hd
    exact ⟨[], [], [], by simp [pyTokens, hd], by simp⟩
  | cons e r ih =>
    intro d hd
    by_cases he : p e = true
    · exact ⟨[], pyTokens p (e :: r), e :: r, PT_sep r hd he, by simp⟩
    · have he' : p e = false := by simpa using he
      obtain ⟨t', ts', v, h1, h2⟩ := ih e he'
      exact ⟨e :: t', ts', v, PT_glue hd he' h1, by simp [h2]⟩

/-- Every token produced by `pyTokens` is nonempty and separator-free. -/
theorem pyTokens_forall (p : Char → Bool) :
    ∀ (l t : List Char), t ∈ pyTokens p l → t ≠ [] ∧ ∀ c ∈ t, p c = false := by
  intro l
  induction l with
  | nil => intro t ht; simp [pyTokens] at ht
  | cons c l' ih =>
    intro t ht
    cases l' with
    | nil =>
      by_cases hc : p c = true
      · simp [pyTokens, hc] at ht
      · simp [pyTokens, hc] at ht
        subst ht
        refine ⟨by simp, ?_⟩
        intro x hx
        simp at hx
        subst hx
        simpa using hc
    | cons d rest =>
      by_cases hc : p c = true
      · rw [PT_skip _ hc] at ht
        exact ih t ht
      · have hc' : p c = false := by simpa using hc
        by_cases hd : p d = true
        · rw [PT_sep rest hc' hd] at ht
          rcases List.mem_cons.mp ht with rfl | ht'
          · refine ⟨by simp, ?_⟩
            intro x hx
            simp at hx
            subst hx
            exact hc'
          · exact ih t ht'
        · have hd' : p d = false := by simpa using hd
          obtain ⟨t', ts', v, h1, h2⟩ := pyTokens_head_struct p rest d hd'
          rw [PT_glue hc' hd' h1] at ht
          rcases List.mem_cons.mp ht with rfl | ht'
          · refine ⟨by simp, ?_⟩
            intro x hx
            rcases List.mem_cons.mp hx with rfl | hx'
            · exact hc'
            · have : x ∈ d :: t' := hx'
              have hmem : d :: t' ∈ pyTokens p (d :: rest) := by rw [h1]; simp
              exact (ih (d :: t') hmem).2 x this
          · have hmem : t ∈ pyTokens p (d :: rest) := by
              rw [h1]
              exact List.mem_cons_of_mem _ ht'
            exact ih t hmem

/-- Every token of `pyTokens p l` is a contiguous segment of `l`. -/
theorem pyTokens_subseg (p : Char → Bool) :
    ∀ (l t : List Char), t ∈ pyTokens p l → subseg t l := by
  intro l
  induction l with
  | nil => intro t ht; simp [pyTokens] at ht
  | cons c l' ih =>
    intro t ht
    cases l' with
    | nil =>
      by_cases hc : p c = true
      · simp [pyTokens, hc] at ht
      · simp [pyTokens, hc] at ht
        subst ht
        exact ⟨[], [], by simp⟩
    | cons d rest =>
      by_cases hc : p c = true
      · rw [PT_skip _ hc] at ht
        obtain ⟨u, v, huv⟩ := ih t ht
        exact ⟨c :: u, v, by simp [huv]⟩
      · have hc' : p c = false := by simpa using hc
        by_cases hd : p d = true
        · rw [PT_sep rest hc' hd] at ht
          rcases List.mem_cons.mp ht with rfl | ht'
          · exact ⟨[], d :: rest, by simp⟩
          · obtain ⟨u, v, huv⟩ := ih t ht'
            exact ⟨c :: u, v, by simp [huv]⟩
        · have hd' : p d = false := by simpa using hd
          obtain ⟨t', ts', v, h1, h2⟩ := pyTokens_head_struct p rest d hd'
          rw [PT_glue hc' hd' h1] at ht
          rcases List.mem_cons.mp ht with rfl | ht'
          · exact ⟨[], v, by simp [h2]⟩
          · have hmem : t ∈ pyTokens p (d :: rest) := by
              rw [h1]
              exact List.mem_cons_of_mem _ ht'
            obtain ⟨u, v', huv⟩ := ih t hmem
            exact ⟨c :: u, v', by simp [huv]⟩

/-- `pyTokens` returns a nonempty separator-free list as its own single
token. -/
theorem pyTokens_single (p : Char → Bool) :
    ∀ (t : List Char), t ≠ [] → (∀ c ∈ t, p c = false) → pyTokens p t = [t] := by
  intro t
  induction t with
  | nil => intro h _; exact absurd rfl h
  | cons c t' ih =>
    intro _ hall
    cases t' with
    | nil => simp [pyTokens, hall c (by simp)]
    | cons b t'' =>
      have hb : p b = false := hall b (by simp)
      have hc : p c = false := hall c (by simp)
      have ihres : pyTokens p (b :: t'') = [b :: t''] := by
        apply ih (by simp)
        intro x hx
        exact hall x (by simp [hx])
      exact PT_glue hc hb ihres

/-- `pyTokens` cuts exactly at an inserted separator. -/
theorem pyTokens_append_sep (p : Char → Bool) {sep : Char} (hsep : p sep = true) :
    ∀ (t : List Char) (z : List Char), t ≠ [] → (∀ c ∈ t, p c = false) →
    pyTokens p (t ++ sep :: z) = t :: pyTokens p z := by
  intro t
  induction t with
  | nil => intro z h _; exact absurd rfl h
  | cons c t' ih =>
    intro z _ hall
    have hc : p c = false := hall c (by simp)
    cases t' with
    | nil =>
      rw [List.cons_append, List.nil_append, PT_sep z hc hsep, PT_skip z hsep]
    | cons b t'' =>
      have hb : p b = false := hall b (by simp)
      have ihres : pyTokens p ((b :: t'') ++ sep :: z) = (b :: t'') :: pyTokens p z := by
        apply ih z (by simp)
        intro x hx
        exact hall x (by simp [hx])
      rw [List.cons_append] at ihres ⊢
      exact PT_glue hc hb ihres

/-- Splitting a space-joined list of good tokens recovers the tokens. -/
theorem pyTokens_joinSp (p : Char → Bool) (hsp : p ' ' = true) :
    ∀ (ts : List (List Char)), (∀ t ∈ ts, t ≠ [] ∧ ∀ c ∈ t, p c = false) →
    pyTokens p (joinSp ts) = ts := by
  intro ts
  induction ts with
  | nil => intro _; rfl
  | cons t ts' ih =>
    intro h
    cases ts' with
    | nil =>
      show pyTokens p t = [t]
      exact pyTokens_single p t (h t (by simp)).1 (h t (by simp)).2
    | cons t2 ts'' =>
      have hj : joinSp (t :: t2 :: ts'') = t ++ ' ' :: joinSp (t2 :: ts'') := rfl
      rw [hj, pyTokens_append_sep p hsp t _ (h t (by simp)).1 (h t (by simp)).2]
      rw [ih (fun x hx => h x (by simp [hx]))]

/-- Characters of a space-joined list are spaces or token characters. -/
theorem joinSp_mem : ∀ (ts : List (List Char)) (c : Char), c ∈ joinSp ts →
    c = ' ' ∨ ∃ t ∈ ts, c ∈ t := by
  intro ts
  induction ts with
  | nil => intro c hc; simp [joinSp] at hc
  | cons t ts' ih =>
    intro c hc
    cases ts' with
    | nil => exact Or.inr ⟨t, by simp, by simpa [joinSp] using hc⟩
    | cons t2 ts'' =>
      have hj : joinSp (t :: t2 :: ts'') = t ++ ' ' :: joinSp (t2 :: ts'') := rfl
      rw [hj] at hc
      rcases List.mem_append.mp hc with h | h
      · exact Or.inr ⟨t, by simp, h⟩
      · rcases List.mem_cons.mp h with rfl | h'
        · exact Or.inl rfl
        · rcases ih c h' with h'' | ⟨t3, ht3, hc3⟩
          · exact Or.inl h''
          · exact Or.inr ⟨t3, by simp [ht3], hc3⟩

/-- A nonempty space-join of nonempty space-free tokens ends in a
non-space character (stated via `reverse`). -/
theorem joinSp_rev_head : ∀ (ts : List (List Char)), ts ≠ [] →
    (∀ t ∈ ts, t ≠ [] ∧ ∀ c ∈ t, isPySpace c = false) →
    ∃ c w, (joinSp ts).reverse = c :: w ∧ isPySpace c = false := by
  intro ts
  induction ts with
  | nil => intro h _; exact absurd rfl h
  | cons t ts' ih =>
    intro _ hall
    cases ts' with
    | nil =>
      obtain ⟨hne, hns⟩ := hall t (by simp)
      cases hr : t.reverse with
      | nil =>
        exfalso
        apply hne
        simpa using congrArg List.reverse hr
      | cons c w =>
        refine ⟨c, w, by simpa [joinSp] using hr, ?_⟩
        apply hns
        have : c ∈ t.reverse := by rw [hr]; simp
        simpa using this
    | cons t2 ts'' =>
      have hj : joinSp (t :: t2 :: ts'') = t ++ ' ' :: joinSp (t2 :: ts'') := rfl
      obtain ⟨c, w, hcw, hcns⟩ := ih (by simp) (fun x hx => hall x (by simp [hx]))
      refine ⟨c, w ++ ' ' :: t.reverse, ?_, hcns⟩
      rw [hj, List.reverse_append, List.reverse_cons, hcw]
      simp

/-- Collapsing whitespace twice is the same as collapsing it once. -/
theorem collapseWs_idem (l : List Char) : collapseWs (collapseWs l) = collapseWs l := by
  show joinSp (pyTokens isPySpace (joinSp (pyTokens isPySpace l))) = _
  rw [pyTokens_joinSp isPySpace (by decide) _ (fun t ht => pyTokens_forall isPySpace l t ht)]
  rfl

/-- A collapsed string is already stripped. -/
theorem pyStrip_collapseWs (l : List Char) : pyStrip (collapseWs l) = collapseWs l := by
  cases hts : pyTokens isPySpace l with
  | nil =>
    show pyStrip (joinSp (pyTokens isPySpace l)) = joinSp (pyTokens isPySpace l)
    rw [hts]
    rfl
  | cons t ts' =>
    have hall : ∀ x ∈ t :: ts', x ≠ [] ∧ ∀ c ∈ x, isPySpace c = false := by
      intro x hx
      exact pyTokens_forall isPySpace l x (by rw [hts]; exact hx)
    have hhead : ∃ h rest, joinSp (t :: ts') = h :: rest ∧ isPySpace h = false := by
      obtain ⟨hne, hns⟩ := hall t (by simp)
      cases t with
      | nil => exact absurd rfl hne
      | cons a t'' =>
        cases ts' with
        | nil => exact ⟨a, t'', rfl, hns a (by simp)⟩
        | cons t2 ts'' =>
          refine ⟨a, t'' ++ ' ' :: joinSp (t2 :: ts''), rfl, hns a (by simp)⟩
    obtain ⟨h, rest, hjoin, hhns⟩ := hhead
    obtain ⟨c, w, hcw, hcns⟩ := joinSp_rev_head (t :: ts') (by simp) hall
    show pyStrip (joinSp (pyTokens isPySpace l)) = joinSp (pyTokens isPySpace l)
    rw [hts]
    rw [pyStrip, hjoin, List.dropWhile_cons, if_neg (by simp [hhns]), ← hjoin, hcw,
      List.dropWhile_cons, if_neg (by simp [hcns]), ← hcw]
    simp

/-- Inserting a whitespace separator between match-free parts keeps the
whole match-free. -/
theorem hasUrl_sep_append {c : Char} (hc : isPySpace c = true) :
    ∀ (t y : List Char), hasUrl t = false → hasUrl y = false →
    hasUrl (t ++ c :: y) = false := by
  intro t
  induction t with
  | nil =>
    intro y _ h2
    rw [List.nil_append, hasUrl, uml_space_head y hc]
    simpa using h2
  | cons a t' ih =>
    intro y h1 h2
    rw [hasUrl, Bool.or_eq_false_iff] at h1
    obtain ⟨ha, ht'⟩ := h1
    have ha' : urlMatchLen (a :: t') = none :=
      Option.not_isSome_iff_eq_none.mp (fun hs => absurd hs (by simp [ha]))
    have hext := uml_ext (t := a :: t') (c := c) y ha' hc
    rw [List.cons_append] at hext
    rw [List.cons_append, hasUrl, hext, ih y ht' h2]
    simp

/-- Joining match-free tokens with spaces yields a match-free string. -/
theorem hasUrl_joinSp : ∀ (ts : List (List Char)), (∀ t ∈ ts, hasUrl t = false) →
    hasUrl (joinSp ts) = false := by
  intro ts
  induction ts with
  | nil => intro _; rfl
  | cons t ts' ih =>
    intro h
    cases ts' with
    | nil => exact h t (by simp)
    | cons t2 ts'' =>
      have hj : joinSp (t :: t2 :: ts'') = t ++ ' ' :: joinSp (t2 :: ts'') := rfl
      rw [hj]
      exact hasUrl_sep_append (by decide) t _ (h t (by simp))
        (ih (fun x hx => h x (by simp [hx])))

/-- Collapsing whitespace cannot create a URL match. -/
theorem hasUrl_collapseWs {l : List Char} (h : hasUrl l = false) :
    hasUrl (collapseWs l) = false := by
  apply hasUrl_joinSp
  intro t ht
  cases hx : hasUrl t with
  | false => rfl
  | true =>
    exfalso
    have := hasUrl_of_subseg (pyTokens_subseg isPySpace l t ht) hx
    rw [this] at h
    exact Bool.noConfusion h

/-- Mapping a function that fixes every element is the identity. -/
theorem map_eq_self_of_fixed {f : Char → Char} : ∀ {l : List Char},
    (∀ c ∈ l, f c = c) → l.map f = l := by
  intro l
  induction l with
  | nil => intro _; rfl
  | cons a l' ih =>
    intro h
    rw [List.map_cons, h a (by simp), ih (fun c hc => h c (by simp [hc]))]

/-- Characters of the lowercased string are fixed by `toLowerChar`. -/
theorem pyLower_fixed {l : List Char} {c : Char} (hc : c ∈ pyLower l) :
    toLowerChar c = c := by
  rw [pyLower] at hc
  obtain ⟨a, -, rfl⟩ := List.mem_map.mp hc
  exact toLowerChar_idem a

/-- Under the default configuration, `clean_text` is lowercase, then URL
removal, then whitespace collapse (the split/join tokenize round-trip and
the final strip are absorbed by the collapse). -/
theorem clean_text_default_eq (s : List Char) :
    clean_text defaultPreprocessor s = collapseWs (stripUrls (pyLower s)) := by
  show pyStrip (joinSp (pyTokens isPySpace (collapseWs (stripUrls (pyLower s))))) = _
  have h1 : joinSp (pyTokens isPySpace (collapseWs (stripUrls (pyLower s))))
      = collapseWs (collapseWs (stripUrls (pyLower s))) := rfl
  rw [h1, collapseWs_idem, pyStrip_collapseWs]

/-- C7: under the default lowercase-plus-URL-strip-plus-whitespace-collapse
configuration (`_default_preprocessor`), `TextPreprocessor.clean_text` is
idempotent: cleaning an already-cleaned string returns it unchanged. -/
theorem clean_text_default_idem (s : List Char) :
    clean_text defaultPreprocessor (clean_text defaultPreprocessor s) =
      clean_text defaultPreprocessor s := by
  rw [clean_text_default_eq, clean_text_default_eq]
  have hlower : pyLower (collapseWs (stripUrls (pyLower s))) =
      collapseWs (stripUrls (pyLower s)) := by
    apply map_eq_self_of_fixed
    intro c hc
    rcases joinSp_mem (pyTokens isPySpace (stripUrls (pyLower s))) c hc with rfl | ⟨t, ht, hct⟩
    · decide
    · obtain ⟨u, v, huv⟩ := pyTokens_subseg isPySpace _ t ht
      have hcmem : c ∈ stripUrls (pyLower s) := by
        rw [huv]
        simp [hct]
      exact pyLower_fixed (stripUrls_chars (pyLower s).length _ (Nat.le_refl _) c hcmem)
  rw [hlower]
  have hnu : hasUrl (collapseWs (stripUrls (pyLower s))) = false :=
    hasUrl_collapseWs (stripUrls_no_url (pyLower s))
  rw [stripUrls_id_of_no_url hnu, collapseWs_idem]

/-- C8 counterexample: a non-string, non-`None` input is not turned into
the literal token `"none"`: `clean_text(5)` is `str(5) = "5"` cleaned,
which is `"5"`. -/
theorem clean_text_nonstring_cex :
    clean_text_py defaultPreprocessor (PyVal.int 5) = ['5'] ∧
    clean_text_py defaultPreprocessor (PyVal.int 5) ≠ "none".toList := by
  constructor
  · rfl
  · decide

/-- C8 (amended): the `None` input specifically is treated as the literal
token `"none"` by both `clean_text` (default configuration) and
`basic_clean`; other non-string inputs are converted with `str()` and
cleaned normally. -/
theorem clean_text_none_literal :
    clean_text_py defaultPreprocessor PyVal.none = "none".toList ∧
    basic_clean PyVal.none = "none".toList ∧
    ∀ n : Int, clean_text_py defaultPreprocessor (PyVal.int n) =
      clean_text defaultPreprocessor (toString n).toList := by
  refine ⟨by decide, by decide, fun n => rfl⟩

/-- Shape of `pad_sequences`: output length is exactly `maxlen`, short
sequences are left-padded with zeros, long ones keep their last `maxlen`
entries. -/
theorem pad_sequences_spec (maxlen : Nat) (s : List Nat) :
    (pad_sequences maxlen s).length = maxlen ∧
    (s.length ≤ maxlen → pad_sequences maxlen s = List.replicate (maxlen - s.length) 0 ++ s) ∧
    (maxlen ≤ s.length → pad_sequences maxlen s = s.drop (s.length - maxlen)) := by
  refine ⟨?_, ?_, ?_⟩
  · show (List.replicate (maxlen - (s.drop (s.length - maxlen)).length) 0 ++
      s.drop (s.length - maxlen)).length = maxlen
    simp only [List.length_append, List.length_replicate, List.length_drop]
    omega
  · intro h
    show List.replicate (maxlen - (s.drop (s.length - maxlen)).length) 0 ++
      s.drop (s.length - maxlen) = _
    have h0 : s.length - maxlen = 0 := by omega
    rw [h0, List.drop_zero]
  · intro h
    show List.replicate (maxlen - (s.drop (s.length - maxlen)).length) 0 ++
      s.drop (s.length - maxlen) = _
    have hlen : (s.drop (s.length - maxlen)).length = maxlen := by
      simp only [List.length_drop]
      omega
    rw [hlen, Nat.sub_self]
    rfl

/-- C5: for every input text, `ToxicClassifier.preprocess_text` returns a
sequence of length exactly 100; when the encoded id sequence is shorter
than 100 it is padded at the front with zeros, and when it is longer the
last 100 ids are kept (pre-padding and pre-truncation). -/
theorem preprocess_text_pads (tk : Tokenizer) (s : List Char) :
    (preprocess_text tk s).length = 100 ∧
    ((texts_to_sequences_one tk (pyStrip (pyLower s))).length ≤ 100 →
      preprocess_text tk s =
        List.replicate (100 - (texts_to_sequences_one tk (pyStrip (pyLower s))).length) 0 ++
          texts_to_sequences_one tk (pyStrip (pyLower s))) ∧
    (100 ≤ (texts_to_sequences_one tk (pyStrip (pyLower s))).length →
      preprocess_text tk s =
        (texts_to_sequences_one tk (pyStrip (pyLower s))).drop
          ((texts_to_sequences_one tk (pyStrip (pyLower s))).length - 100)) :=
  pad_sequences_spec 100 (texts_to_sequences_one tk (pyStrip (pyLower s)))

/-- C5 witness: on the concrete tokenizer `tkZero` and the text
`"hi there"` the theorem's short-sequence clause applies. -/
theorem preprocess_text_pads_witness :
    (preprocess_text tkZero "hi there".toList).length = 100 ∧
    (texts_to_sequences_one tkZero (pyStrip (pyLower "hi there".toList))).length ≤ 100 ∧
    preprocess_text tkZero "hi there".toList =
      List.replicate
        (100 - (texts_to_sequences_one tkZero (pyStrip (pyLower "hi there".toList))).length) 0 ++
        texts_to_sequences_one tkZero (pyStrip (pyLower "hi there".toList)) :=
  ⟨(preprocess_text_pads tkZero "hi there".toList).1, by decide,
    (preprocess_text_pads tkZero "hi there".toList).2.1 (by decide)⟩

/-- C6: encoding is deterministic: equal texts encode, against the same
tokenizer, to equal padded sequences (`preprocess_text` is a pure
function of the text and tokenizer). -/
theorem preprocess_text_deterministic (tk : Tokenizer) (t1 t2 : List Char) (h : t1 = t2) :
    preprocess_text tk t1 = preprocess_text tk t2 := by
  rw [h]

/-- C6 witness: determinism applied at a concrete tokenizer and text. -/
theorem preprocess_text_deterministic_witness :
    preprocess_text tkZero "toxic text".toList = preprocess_text tkZero "toxic text".toList :=
  preprocess_text_deterministic tkZero "toxic text".toList "toxic text".toList rfl

/-- The keys of a constant mapping are the category list. -/
theorem constMap_keys (q : ℚ) : (constMap q).map Prod.fst = categories := rfl

/-- Evaluation of `predict` when the input short-circuits as blank. -/
theorem predict_blank {C : ToxicClassifier} {rng : Fin 6 → ℚ} {s : List Char}
    (h : (s.isEmpty || (pyStrip s).isEmpty) = true) : predict C rng s = constMap 0 := by
  rw [predict, if_pos h]

/-- Evaluation of `predict` when the tokenizer attribute is `None`: the
attribute error inside the `try` yields the uniform fallback. -/
theorem predict_no_tokenizer {C : ToxicClassifier} {rng : Fin 6 → ℚ} {s : List Char}
    (h : ¬(s.isEmpty || (pyStrip s).isEmpty) = true) (htk : C.tokenizer = Option.none) :
    predict C rng s = constMap (1 / 10) := by
  rw [predict, if_neg h]
  simp only [htk]

/-- Evaluation of `predict` on the missing-model random branch. -/
theorem predict_no_model {C : ToxicClassifier} {rng : Fin 6 → ℚ} {s : List Char} {tk : Tokenizer}
    (h : ¬(s.isEmpty || (pyStrip s).isEmpty) = true) (htk : C.tokenizer = some tk)
    (hmod : C.model = Option.none) : predict C rng s = categories.zip (List.ofFn rng) := by
  rw [predict, if_neg h]
  simp only [htk, hmod]

/-- Evaluation of `predict` when the forward pass raises. -/
theorem predict_fwd_error {C : ToxicClassifier} {rng : Fin 6 → ℚ} {s : List Char}
    {tk : Tokenizer} {mdl : KerasModel} {e : PyErr}
    (h : ¬(s.isEmpty || (pyStrip s).isEmpty) = true) (htk : C.tokenizer = some tk)
    (hmod : C.model = some mdl) (hf : mdl.forward (preprocess_text tk s) = Except.error e) :
    predict C rng s = constMap (1 / 10) := by
  rw [predict, if_neg h]
  simp only [htk, hmod, hf]

/-- Evaluation of `predict` when the forward pass returns a row. -/
theorem predict_fwd_ok {C : ToxicClassifier} {rng : Fin 6 → ℚ} {s : List Char}
    {tk : Tokenizer} {mdl : KerasModel} {preds : List ℚ}
    (h : ¬(s.isEmpty || (pyStrip s).isEmpty) = true) (htk : C.tokenizer = some tk)
    (hmod : C.model = some mdl) (hf : mdl.forward (preprocess_text tk s) = Except.ok preds) :
    predict C rng s =
      if 6 ≤ preds.length then categories.zip (preds.take 6) else constMap (1 / 10) := by
  rw [predict, if_neg h]
  simp only [htk, hmod, hf]

/-- The keys of every mapping returned by `predict`, on every path, are
exactly the six fixed categories in order. -/
theorem predict_keys (C : ToxicClassifier) (rng : Fin 6 → ℚ) (s : List Char) :
    (predict C rng s).map Prod.fst = categories := by
  by_cases h : (s.isEmpty || (pyStrip s).isEmpty) = true
  · rw [predict_blank h]
    exact constMap_keys 0
  · cases htk : C.tokenizer with
    | none =>
      rw [predict_no_tokenizer h htk]
      exact constMap_keys _
    | some tk =>
      cases hmod : C.model with
      | none =>
        rw [predict_no_model h htk hmod]
        apply List.map_fst_zip
        simp [categories]
      | some mdl =>
        cases hf : mdl.forward (preprocess_text tk s) with
        | error e =>
          rw [predict_fwd_error h htk hmod hf]
          exact constMap_keys _
        | ok preds =>
          rw [predict_fwd_ok h htk hmod hf]
          split_ifs with hlen
          · apply List.map_fst_zip
            simp only [List.length_take, categories, List.length_cons, List.length_nil]
            omega
          · rfl

/-- A value of a constant mapping is the constant. -/
theorem constMap_val {q x : ℚ} {c : String} (h : (c, x) ∈ constMap q) : x = q := by
  rw [constMap] at h
  obtain ⟨cat, -, heq⟩ := List.mem_map.mp h
  exact ((Prod.mk.injEq _ _ _ _ ▸ heq).2).symm

/-- C3: every mapping returned by `ToxicClassifier.predict` — on the
normal inference path, the empty-input short-circuit, the missing-model
sampler, and the error fallback — has as its keys exactly the six fixed
category labels in order, with every value in `[0, 1]`.  The two
hypotheses record what the surrounding system guarantees about the
external numeric code: the network's sigmoid output layer yields values
in `[0, 1]`, and `random.uniform(0.1, 0.9)` samples lie in `[0, 1]`. -/
theorem predict_wellformed (C : ToxicClassifier) (rng : Fin 6 → ℚ) (s : List Char)
    (hm : ∀ mdl, C.model = some mdl → ∀ x r, mdl.forward x = Except.ok r →
      ∀ q ∈ r, 0 ≤ q ∧ q ≤ 1)
    (hr : ∀ i, 0 ≤ rng i ∧ rng i ≤ 1) :
    (predict C rng s).map Prod.fst = categories ∧
    ∀ p ∈ predict C rng s, 0 ≤ p.2 ∧ p.2 ≤ 1 := by
  refine ⟨predict_keys C rng s, ?_⟩
  intro p hp
  obtain ⟨cat, x⟩ := p
  by_cases h : (s.isEmpty || (pyStrip s).isEmpty) = true
  · rw [predict_blank h] at hp
    rw [constMap_val hp]
    norm_num
  · cases htk : C.tokenizer with
    | none =>
      rw [predict_no_tokenizer h htk] at hp
      rw [constMap_val hp]
      norm_num
    | some tk =>
      cases hmod : C.model with
      | none =>
        rw [predict_no_model h htk hmod] at hp
        have hx : x ∈ List.ofFn rng := (List.of_mem_zip hp).2
        obtain ⟨i, rfl⟩ := Set.mem_range.mp ((List.mem_ofFn rng x).mp hx)
        exact hr i
      | some mdl =>
        cases hf : mdl.forward (preprocess_text tk s) with
        | error e =>
          rw [predict_fwd_error h htk hmod hf] at hp
          rw [constMap_val hp]
          norm_num
        | ok preds =>
          rw [predict_fwd_ok h htk hmod hf] at hp
          split_ifs at hp with hlen
          · have hx : x ∈ preds.take 6 := (List.of_mem_zip hp).2
            exact hm mdl hmod _ preds hf x (List.take_subset 6 preds hx)
          · rw [constMap_val hp]
            norm_num

/-- C3 witness: the theorem applied to the concrete classifier
`exampleC` (constant one-half forward row) on a concrete text. -/
theorem predict_wellformed_witness :
    (predict exampleC rngHalf "good day".toList).map Prod.fst = categories ∧
    ∀ p ∈ predict exampleC rngHalf "good day".toList, 0 ≤ p.2 ∧ p.2 ≤ 1 :=
  predict_wellformed exampleC rngHalf "good day".toList
    (by
      intro mdl hmdl x r hrr q hq
      have hmdl' : halfModel = mdl := by
        have : some halfModel = some mdl := hmdl
        injection this
      subst hmdl'
      have hrepl : List.replicate 6 ((1 : ℚ) / 2) = r := by
        have : Except.ok (ε := PyErr) (List.replicate 6 ((1 : ℚ) / 2)) = Except.ok r := hrr
        injection this
      subst hrepl
      have hq' := List.eq_of_mem_replicate hq
      subst hq'
      norm_num)
    (by
      intro i
      constructor <;> norm_num [rngHalf])

/-- C1: for every string input, `predict` never propagates an exception —
`predict_py` on a string always returns `Except.ok` — and an exception
raised inside the `try` block (a `None` tokenizer making preprocessing
raise, or a raising forward pass) is caught and turned into the uniform
`0.1` mapping. -/
theorem predict_never_raises (C : ToxicClassifier) (rng : Fin 6 → ℚ) (s : List Char) :
    predict_py C rng (PyVal.str s) = Except.ok (predict C rng s) ∧
    (C.tokenizer = Option.none → ¬(s.isEmpty || (pyStrip s).isEmpty) = true →
      predict C rng s = constMap (1 / 10)) ∧
    (∀ tk mdl e, C.tokenizer = some tk → C.model = some mdl →
      mdl.forward (preprocess_text tk s) = Except.error e →
      ¬(s.isEmpty || (pyStrip s).isEmpty) = true →
      predict C rng s = constMap (1 / 10)) :=
  ⟨rfl, fun htk h => predict_no_tokenizer h htk,
    fun _ _ _ htk hmod hf h => predict_fwd_error h htk hmod hf⟩

/-- C1 witness: the classifier `errC`, whose forward pass always raises,
returns the uniform `0.1` mapping on a concrete non-blank text, and
`predict_py` wraps it in `Except.ok`. -/
theorem predict_never_raises_witness :
    predict_py errC rngHalf (PyVal.str "bad stuff".toList) =
      Except.ok (predict errC rngHalf "bad stuff".toList) ∧
    predict errC rngHalf "bad stuff".toList = constMap (1 / 10) :=
  ⟨(predict_never_raises errC rngHalf "bad stuff".toList).1,
    (predict_never_raises errC rngHalf "bad stuff".toList).2.2 tkZero errModel
      PyErr.inferenceError rfl rfl rfl (by decide)⟩

/-- C2 counterexample: `predict` on the truthy non-string value `1`
evaluates `text.strip()` before the `try` block and the `AttributeError`
propagates — the result is an exception, not the all-zero mapping. -/
theorem predict_py_nonstring_raises :
    predict_py exampleC rngHalf (PyVal.int 1) = Except.error PyErr.attributeError ∧
    predict_py exampleC rngHalf (PyVal.int 1) ≠ Except.ok (constMap 0) := by
  refine ⟨rfl, ?_⟩
  intro hcontra
  have : Except.error (α := ScoreMap) PyErr.attributeError = Except.ok (constMap 0) := hcontra
  exact Except.noConfusion this

/-- C2 (amended): the empty string, whitespace-only strings, `None`, and
every falsy non-string value short-circuit to the all-zero mapping
without invoking the network; truthy non-string values instead raise
`AttributeError` from `text.strip()` (see the counterexample). -/
theorem predict_py_falsy_zero (C : ToxicClassifier) (rng : Fin 6 → ℚ) (v : PyVal)
    (h : v = PyVal.str [] ∨ (∃ s, v = PyVal.str s ∧ pyStrip s = []) ∨
      (pyTruthy v = false ∧ ∀ s, v ≠ PyVal.str s)) :
    predict_py C rng v = Except.ok (constMap 0) := by
  rcases h with rfl | ⟨s, rfl, hs⟩ | ⟨hfalsy, hnotstr⟩
  · rfl
  · show Except.ok (predict C rng s) = _
    rw [predict_blank (by simp [hs])]
  · cases v with
    | str s => exact absurd rfl (hnotstr s)
    | none => rfl
    | int n =>
      show (if pyTruthy (PyVal.int n) then Except.error PyErr.attributeError
        else Except.ok (constMap 0)) = Except.ok (constMap 0)
      rw [if_neg (by simp [hfalsy])]

/-- C2 witness: the amended theorem applied to the whitespace-only
string. -/
theorem predict_py_falsy_zero_witness :
    predict_py exampleC rngHalf (PyVal.str "   ".toList) = Except.ok (constMap 0) :=
  predict_py_falsy_zero exampleC rngHalf (PyVal.str "   ".toList)
    (Or.inr (Or.inl ⟨"   ".toList, rfl, by decide⟩))

/-- C4: `batch_predict` on a list of strings succeeds and returns exactly
the element-wise `predict` results, in order, with the same length as the
input list. -/
theorem batch_predict_maps (C : ToxicClassifier) (rng : Fin 6 → ℚ) (ss : List (List Char)) :
    batch_predict C rng (ss.map PyVal.str) = Except.ok (ss.map (predict C rng)) ∧
    (ss.map (predict C rng)).length = ss.length := by
  refine ⟨?_, List.length_map ss (predict C rng)⟩
  induction ss with
  | nil => rfl
  | cons s ss' ih =>
    rw [List.map_cons, List.map_cons, batch_predict]
    have h1 : predict_py C rng (PyVal.str s) = Except.ok (predict C rng s) := rfl
    rw [h1, ih]

/-- C9: when every startup artifact fails to load (both loader results
are errors), `ToxicClassifier.__init__` still succeeds, installing the
dummy model and dummy tokenizer, and `predict` on the resulting
classifier returns a mapping whose keys are exactly the six categories. -/
theorem fallback_construction (init : List Nat → Fin 6 → ℚ) (e1 e2 : PyErr)
    (rng : Fin 6 → ℚ) (s : List Char) :
    (mkToxicClassifier init (Except.error e1) (Except.error e2)).model =
      some (create_dummy_model init) ∧
    (mkToxicClassifier init (Except.error e1) (Except.error e2)).tokenizer =
      some create_dummy_tokenizer ∧
    (predict (mkToxicClassifier init (Except.error e1) (Except.error e2)) rng s).map
      Prod.fst = categories :=
  ⟨rfl, rfl, predict_keys _ rng s⟩

/-- C10: after `__init__`, `self.model` and `self.tokenizer` are never
`None` — whatever the loader results, a model and tokenizer are
installed — so `get_model_info` always reports both loaded flags as
`True`, and the `random.uniform` branch of `predict` is unreachable: the
result does not depend on the sampler at all. -/
theorem init_installs_model (init : List Nat → Fin 6 → ℚ)
    (resM : Except PyErr KerasModel) (resT : Except PyErr Tokenizer) :
    (mkToxicClassifier init resM resT).model.isSome = true ∧
    (mkToxicClassifier init resM resT).tokenizer.isSome = true ∧
    (get_model_info (mkToxicClassifier init resM resT)).model_loaded = true ∧
    (get_model_info (mkToxicClassifier init resM resT)).tokenizer_loaded = true ∧
    ∀ (rng rng' : Fin 6 → ℚ) (s : List Char),
      predict (mkToxicClassifier init resM resT) rng s =
        predict (mkToxicClassifier init resM resT) rng' s :=
  ⟨rfl, rfl, rfl, rfl, fun _ _ _ => rfl⟩
